import Mathlib

/-
Verification of the `mach` structured JSON logger.

Shallow embedding conventions:
- Go byte slices and strings are modelled as `List Nat` (each element a byte value < 256).
- Machine integers (`int64`) are modelled as `Int`; theorems that need the 64-bit
  range state it as an explicit hypothesis.
- Effectful logger code is modelled by explicit state passing over a `MachineState`
  that records the shared atomic level cells, the ordered list of sink writes, and
  the buffer-provider acquire/release events.
- Floating point formatting (`appendFloat64`) and the Go `time` package are external
  to the byte-level encoder; their renderings appear as abstract functions in `ExtEnc`.
- The iterative Go loops (`appendEscapedString`) are embedded with an explicit fuel
  argument; fuel equal to the input length is always sufficient, which the wrapper
  supplies.
-/

/-- Byte membership in the source's `safeSet` table: the `init` function marks
bytes 0x20..0x7E and then clears `"` (34) and `\` (92). -/
def safeSet (b : Nat) : Bool :=
  decide ((0x20 ≤ b ∧ b ≤ 0x7E) ∧ b ≠ 34 ∧ b ≠ 92)

/-- Mirror of `hexDigit` from level.go: lowercase hex digit for a nibble. -/
def hexDigit (b : Nat) : Nat :=
  if b < 10 then 48 + b else 97 + b - 10

/-- Bytes of the literal escape `�` emitted for invalid encodings. -/
def escFFFD : List Nat := [92, 117, 102, 102, 102, 100]

/-- Lower bound of the accepted second byte of a UTF-8 sequence, per Go's
`utf8.acceptRanges` (0xE0 requires ≥ 0xA0, 0xF0 requires ≥ 0x90, else ≥ 0x80). -/
def acceptLo (b0 : Nat) : Nat :=
  if b0 = 0xE0 then 0xA0 else if b0 = 0xF0 then 0x90 else 0x80

/-- Upper bound of the accepted second byte of a UTF-8 sequence, per Go's
`utf8.acceptRanges` (0xED allows ≤ 0x9F, 0xF4 allows ≤ 0x8F, else ≤ 0xBF). -/
def acceptHi (b0 : Nat) : Nat :=
  if b0 = 0xED then 0x9F else if b0 = 0xF4 then 0x8F else 0xBF

/-- Model of Go's `utf8.DecodeRuneInString`: returns (rune value, size).
Invalid or truncated input yields (0xFFFD, 1); the empty string yields (0xFFFD, 0).
Masking with `& (2^k - 1)` in the Go source is written as `% 2^k`. -/
def decodeRuneInString : List Nat → Nat × Nat
  | [] => (0xFFFD, 0)
  | b0 :: rest =>
    if b0 < 0x80 then (b0, 1)
    else if b0 < 0xC2 ∨ 0xF4 < b0 then (0xFFFD, 1)
    else
      match rest with
      | [] => (0xFFFD, 1)
      | b1 :: rest1 =>
        if b1 < acceptLo b0 ∨ acceptHi b0 < b1 then (0xFFFD, 1)
        else if b0 ≤ 0xDF then ((b0 % 32) * 64 + b1 % 64, 2)
        else
          match rest1 with
          | [] => (0xFFFD, 1)
          | b2 :: rest2 =>
            if b2 < 0x80 ∨ 0xBF < b2 then (0xFFFD, 1)
            else if b0 ≤ 0xEF then ((b0 % 16) * 4096 + (b1 % 64) * 64 + b2 % 64, 3)
            else
              match rest2 with
              | [] => (0xFFFD, 1)
              | b3 :: _ =>
                if b3 < 0x80 ∨ 0xBF < b3 then (0xFFFD, 1)
                else ((b0 % 8) * 262144 + (b1 % 64) * 4096 + (b2 % 64) * 64 + b3 % 64, 4)

/-- Slow-path emission of `appendEscapedString` for a single ASCII byte: the Go
`switch` over `"`  `\`  `\n`  `\r`  `\t` with the `\u00XX` default. -/
def escByte (b : Nat) : List Nat :=
  if b = 34 then [92, 34]
  else if b = 92 then [92, 92]
  else if b = 10 then [92, 110]
  else if b = 13 then [92, 114]
  else if b = 9 then [92, 116]
  else [92, 117, 48, 48, hexDigit (b / 16), hexDigit (b % 16)]

/-- Fuel-indexed embedding of the `appendEscapedString` loop from level.go.
Each iteration copies the maximal safe run, then handles one unsafe unit
(an escaped ASCII byte or one decoded UTF-8 sequence) and continues. One unit
of fuel per iteration; fuel equal to the input length always suffices because
every iteration consumes at least one input byte. -/
def escGo : Nat → List Nat → List Nat → List Nat
  | 0, dst, _ => dst
  | fuel + 1, dst, s =>
    let run := s.takeWhile safeSet
    let rest := s.dropWhile safeSet
    match rest with
    | [] => dst ++ run
    | b :: t =>
      if 0x80 ≤ b then
        let rs := decodeRuneInString (b :: t)
        escGo fuel
          ((dst ++ run) ++ (if rs.1 = 0xFFFD ∧ rs.2 = 1 then escFFFD else (b :: t).take rs.2))
          ((b :: t).drop rs.2)
      else
        escGo fuel ((dst ++ run) ++ escByte b) t

/-- Mirror of `appendEscapedString` from level.go (the fuel wrapper). -/
def appendEscapedString (dst s : List Nat) : List Nat :=
  escGo s.length dst s

/-- Mirror of `appendJSONString` from level.go: quote, escape, quote. -/
def appendJSONString (dst s : List Nat) : List Nat :=
  (appendEscapedString (dst ++ [34]) s) ++ [34]

/-- Mirror of `appendKey` from level.go: quoted escaped key followed by `:`. -/
def appendKey (dst key : List Nat) : List Nat :=
  (appendEscapedString (dst ++ [34]) key) ++ [34, 58]

/-- Mirror of `appendBool` from level.go. -/
def appendBool (dst : List Nat) (v : Bool) : List Nat :=
  if v then dst ++ [116, 114, 117, 101] else dst ++ [102, 97, 108, 115, 101]

/-- Digit loop of `appendInt64`: the Go code writes decimal digits back-to-front
into a fixed buffer and copies the tail out; the accumulator is that tail. -/
def intLoop (n : Nat) (acc : List Nat) : List Nat :=
  if n = 0 then acc else intLoop (n / 10) ((n % 10 + 48) :: acc)
termination_by n
decreasing_by exact Nat.div_lt_self (Nat.pos_of_ne_zero (by assumption)) (by norm_num)

/-- Mirror of `appendInt64` from level.go: `'0'` for zero, a `'-'` then the
special-cased magnitude string for the minimum int64, otherwise `'-'` plus the
digit loop on the negated value, or the digit loop directly for positives. -/
def appendInt64 (dst : List Nat) (v : Int) : List Nat :=
  if v = 0 then dst ++ [48]
  else if v < 0 then
    if v = -9223372036854775808 then
      (dst ++ [45]) ++ [57, 50, 50, 51, 51, 55, 50, 48, 51, 54, 56, 53, 52, 55, 55, 53, 56, 48, 56]
    else (dst ++ [45]) ++ intLoop (-v).toNat []
  else dst ++ intLoop v.toNat []

/-- Mirror of the `levelNames` table from level.go (DEBUG, INFO, WARN, ERROR, FATAL). -/
def levelNames : List (List Nat) :=
  [[68, 69, 66, 85, 71], [73, 78, 70, 79], [87, 65, 82, 78], [69, 82, 82, 79, 82], [70, 65, 84, 65, 76]]

/-- Mirror of `Level.String` from level.go: index `l + 1` into `levelNames` when in
range, the bytes of "UNKNOWN" otherwise. `Level` values are `Int` (Debug is -1). -/
def levelString (l : Int) : List Nat :=
  let idx := l + 1
  if 0 ≤ idx ∧ idx < 5 then levelNames.getD idx.toNat [] else [85, 78, 75, 78, 79, 87, 78]

/-- Mirror of the `FieldType` enumeration from field.go. -/
inductive FieldType where
  | StringType
  | IntType
  | Int64Type
  | Float64Type
  | BoolType
  | DurationType
  | ErrorType
  | TimeType
  | BytesType
deriving DecidableEq

/-- Mirror of the `Field` struct from field.go, called `LogField` here because
Mathlib already uses the name `Field`. The Go field named `Type` is called
`ftype` because `Type` is reserved in Lean. -/
structure LogField where
  Key : List Nat
  ftype : FieldType
  Ival : Int
  Str : List Nat
  Bval : List Nat
deriving DecidableEq

/-- Mirror of the `String(key, val)` constructor from field.go. -/
def StringField (key val : List Nat) : LogField :=
  { Key := key, ftype := FieldType.StringType, Ival := 0, Str := val, Bval := [] }

/-- Mirror of the `Int(key, val)` constructor from field.go (int widened to int64). -/
def IntField (key : List Nat) (val : Int) : LogField :=
  { Key := key, ftype := FieldType.IntType, Ival := val, Str := [], Bval := [] }

/-- Mirror of the `Int64(key, val)` constructor from field.go. -/
def Int64Field (key : List Nat) (val : Int) : LogField :=
  { Key := key, ftype := FieldType.Int64Type, Ival := val, Str := [], Bval := [] }

/-- Mirror of the `Float64(key, val)` constructor from field.go; the stored value
is the IEEE-754 bit pattern `math.Float64bits(val)`, taken here as given since
float semantics are external to the byte-level encoder. -/
def Float64Field (key : List Nat) (valBits : Int) : LogField :=
  { Key := key, ftype := FieldType.Float64Type, Ival := valBits, Str := [], Bval := [] }

/-- Mirror of the `Bool(key, val)` constructor from field.go. -/
def BoolField (key : List Nat) (val : Bool) : LogField :=
  { Key := key, ftype := FieldType.BoolType, Ival := if val then 1 else 0, Str := [], Bval := [] }

/-- Mirror of the `Duration(key, val)` constructor from field.go (raw nanoseconds). -/
def DurationField (key : List Nat) (val : Int) : LogField :=
  { Key := key, ftype := FieldType.DurationType, Ival := val, Str := [], Bval := [] }

/-- Mirror of the `Err(val)` constructor from field.go. A Go `error` is modelled
as `Option (List Nat)`: `none` is a nil error, `some e` carries the bytes of
`val.Error()`. -/
def Err (val : Option (List Nat)) : LogField :=
  match val with
  | none => { Key := [101, 114, 114, 111, 114], ftype := FieldType.StringType, Ival := 0, Str := [], Bval := [] }
  | some e => { Key := [101, 114, 114, 111, 114], ftype := FieldType.ErrorType, Ival := 0, Str := e, Bval := [] }

/-- Mirror of the `Time(key, val)` constructor from field.go (`val.UnixNano()`). -/
def TimeField (key : List Nat) (valUnixNano : Int) : LogField :=
  { Key := key, ftype := FieldType.TimeType, Ival := valUnixNano, Str := [], Bval := [] }

/-- Mirror of the `Bytes(key, val)` constructor from field.go. -/
def BytesField (key val : List Nat) : LogField :=
  { Key := key, ftype := FieldType.BytesType, Ival := 0, Str := [], Bval := val }

/-- Renderings delegated to collaborators outside the byte-level encoder:
`floatFromBits` is what `appendFloat64(math.Float64frombits(uint64(v)))` appends,
`durationSeconds` is what `appendFloat64(time.Duration(v).Seconds())` appends, and
`timeRFC3339` is what `t.AppendFormat(dst, time.RFC3339Nano)` appends for the time
with the given UnixNano value. -/
structure ExtEnc where
  floatFromBits : Int → List Nat
  durationSeconds : Int → List Nat
  timeRFC3339 : Int → List Nat

/-- Mirror of `appendField` from level.go: key, then a dispatch on the type tag. -/
def appendField (env : ExtEnc) (dst : List Nat) (f : LogField) : List Nat :=
  let d := appendKey dst f.Key
  match f.ftype with
  | FieldType.StringType => appendJSONString d f.Str
  | FieldType.IntType => appendInt64 d f.Ival
  | FieldType.Int64Type => appendInt64 d f.Ival
  | FieldType.Float64Type => d ++ env.floatFromBits f.Ival
  | FieldType.BoolType => appendBool d (f.Ival = 1)
  | FieldType.DurationType => d ++ env.durationSeconds f.Ival
  | FieldType.ErrorType => appendJSONString d f.Str
  | FieldType.TimeType => ((d ++ [34]) ++ env.timeRFC3339 f.Ival) ++ [34]
  | FieldType.BytesType => appendJSONString d f.Bval

/-- Mirror of the `Logger` struct from logger.go. The shared `output` sink, the
shared `*AtomicLevel`, and the shared `*gohotpool.Pool` are modelled as reference
identifiers into the `MachineState`; `context` is the owned pre-encoded bytes. -/
structure Logger where
  output : Nat
  level : Nat
  pool : Nat
  context : List Nat
deriving DecidableEq

/-- Observable state shared by all loggers: the value stored in each `AtomicLevel`
cell, the ordered list of `(sink, payload)` write events, the ordered lists of
buffer acquire/release events (by pool identifier), and a count of encoder
invocations. -/
structure MachineState where
  levels : Nat → Int
  writes : List (Nat × List Nat)
  acquires : List Nat
  releases : List Nat
  encodes : Nat

/-- Mirror of `AtomicLevel.Enabled` from level.go: `l >= Level(atomic.LoadInt32(&al.v))`. -/
def Enabled (st : MachineState) (al : Nat) (l : Int) : Bool :=
  decide (st.levels al ≤ l)

/-- Mirror of `Logger.log` from logger.go: acquire a buffer (empty on acquisition,
per the provider contract of spec section 4.5), append the preamble, the level
name, the quoted timestamp (`ts` stands for the bytes the external RFC3339Nano
formatter produced for `time.Now()`), the quoted escaped message, the inherited
context bytes, each per-call field comma-prefixed, the closing brace and newline;
write the buffer to the output sink once and release the buffer. -/
def Logger.log (env : ExtEnc) (lg : Logger) (level : Int) (msg : List Nat)
    (fields : List LogField) (ts : List Nat) (st : MachineState) : MachineState :=
  let b1 := ([] : List Nat) ++ [123, 34, 108, 101, 118, 101, 108, 34, 58, 34]
  let b2 := b1 ++ levelString level
  let b3 := b2 ++ [34, 44, 34, 116, 115, 34, 58]
  let b4 := ((b3 ++ [34]) ++ ts) ++ [34]
  let b5 := b4 ++ [44, 34, 109, 115, 103, 34, 58]
  let b6 := appendJSONString b5 msg
  let b7 := b6 ++ lg.context
  let b8 := fields.foldl (fun b f => appendField env (b ++ [44]) f) b7
  let b9 := b8 ++ [125, 10]
  { st with
    acquires := st.acquires ++ [lg.pool]
    releases := st.releases ++ [lg.pool]
    encodes := st.encodes + (fields.length + 1)
    writes := st.writes ++ [(lg.output, b9)] }

/-- Mirror of `Logger.Debug` from logger.go: return unchanged unless DebugLevel
(-1) is enabled. -/
def Logger.Debug (env : ExtEnc) (lg : Logger) (msg : List Nat) (fields : List LogField)
    (ts : List Nat) (st : MachineState) : MachineState :=
  if Enabled st lg.level (-1) then Logger.log env lg (-1) msg fields ts st else st

/-- Mirror of `Logger.Info` from logger.go. -/
def Logger.Info (env : ExtEnc) (lg : Logger) (msg : List Nat) (fields : List LogField)
    (ts : List Nat) (st : MachineState) : MachineState :=
  if Enabled st lg.level 0 then Logger.log env lg 0 msg fields ts st else st

/-- Mirror of `Logger.Warn` from logger.go. -/
def Logger.Warn (env : ExtEnc) (lg : Logger) (msg : List Nat) (fields : List LogField)
    (ts : List Nat) (st : MachineState) : MachineState :=
  if Enabled st lg.level 1 then Logger.log env lg 1 msg fields ts st else st

/-- Mirror of `Logger.Error` from logger.go. -/
def Logger.Error (env : ExtEnc) (lg : Logger) (msg : List Nat) (fields : List LogField)
    (ts : List Nat) (st : MachineState) : MachineState :=
  if Enabled st lg.level 2 then Logger.log env lg 2 msg fields ts st else st

/-- Mirror of `Logger.Fatal` from logger.go: log at FatalLevel (3) with no level
gate, then `os.Exit(1)`; the Boolean component records that the process
terminated. -/
def Logger.Fatal (env : ExtEnc) (lg : Logger) (msg : List Nat) (fields : List LogField)
    (ts : List Nat) (st : MachineState) : MachineState × Bool :=
  (Logger.log env lg 3 msg fields ts st, true)

/-- Mirror of `Logger.With` from logger.go: no fields returns the receiver with no
pool traffic; otherwise encode each field comma-prefixed into an acquired buffer,
copy the bytes out, release the buffer, and build a child sharing `output`,
`level` and `pool` whose context is the receiver's context followed by the new
bytes (the source's two branches on `len(l.context)` both produce exactly that). -/
def Logger.With (env : ExtEnc) (l : Logger) (fields : List LogField)
    (st : MachineState) : Logger × MachineState :=
  if fields.length = 0 then (l, st)
  else
    let encoded := fields.foldl (fun b f => appendField env (b ++ [44]) f) []
    ({ output := l.output, level := l.level, pool := l.pool, context := l.context ++ encoded },
     { st with
        acquires := st.acquires ++ [l.pool]
        releases := st.releases ++ [l.pool]
        encodes := st.encodes + fields.length })

/-- Wire-format record stated from the spec's section 6: the fixed preamble with
the level name, the quoted timestamp bytes, the escaped message, the inherited
context bytes, the comma-prefixed per-call fields in order, and the closing
brace plus newline. -/
def wireRecord (env : ExtEnc) (lg : Logger) (level : Int) (ts msg : List Nat)
    (fields : List LogField) : List Nat :=
  [123, 34, 108, 101, 118, 101, 108, 34, 58, 34] ++ levelString level
    ++ [34, 44, 34, 116, 115, 34, 58, 34] ++ ts ++ [34, 44, 34, 109, 115, 103, 34, 58]
    ++ appendJSONString [] msg ++ lg.context
    ++ (fields.map (fun f => 44 :: appendField env [] f)).flatten ++ [125, 10]

/-- Value of an ASCII hex digit, accepting both cases, per the JSON grammar. -/
def hexVal (b : Nat) : Option Nat :=
  if 48 ≤ b ∧ b ≤ 57 then some (b - 48)
  else if 97 ≤ b ∧ b ≤ 102 then some (b - 87)
  else if 65 ≤ b ∧ b ≤ 70 then some (b - 55)
  else none

/-- Character denoted by a JSON single-character escape `\X`, per RFC 8259. -/
def escCharVal (b : Nat) : Option Nat :=
  if b = 34 then some 34
  else if b = 92 then some 92
  else if b = 47 then some 47
  else if b = 98 then some 8
  else if b = 102 then some 12
  else if b = 110 then some 10
  else if b = 114 then some 13
  else if b = 116 then some 9
  else none

/-- Standard UTF-8 encoding of a Unicode code point as bytes. -/
def encodeUTF8 (r : Nat) : List Nat :=
  if r < 0x80 then [r]
  else if r < 0x800 then [0xC0 + r / 64, 0x80 + r % 64]
  else if r < 0x10000 then [0xE0 + r / 4096, 0x80 + r / 64 % 64, 0x80 + r % 64]
  else [0xF0 + r / 262144, 0x80 + r / 4096 % 64, 0x80 + r / 64 % 64, 0x80 + r % 64]

/-- Decoding of one JSON escape sequence, given the bytes after the backslash:
returns the decoded bytes (escapes re-encoded as UTF-8) and how many input bytes
were consumed, or `none` when the escape is ill-formed. Handles the
single-character escapes and `\uXXXX`, including surrogate pairs, per RFC 8259. -/
def unescapeOne : List Nat → Option (List Nat × Nat)
  | 117 :: h1 :: h2 :: h3 :: h4 :: rest2 =>
    (match hexVal h1, hexVal h2, hexVal h3, hexVal h4 with
     | some v1, some v2, some v3, some v4 =>
       let cp := ((v1 * 16 + v2) * 16 + v3) * 16 + v4
       if cp < 0xD800 ∨ 0xDFFF < cp then some (encodeUTF8 cp, 5)
       else if cp ≤ 0xDBFF then
         match rest2 with
         | 92 :: 117 :: g1 :: g2 :: g3 :: g4 :: _ =>
           (match hexVal g1, hexVal g2, hexVal g3, hexVal g4 with
            | some w1, some w2, some w3, some w4 =>
              let lo := ((w1 * 16 + w2) * 16 + w3) * 16 + w4
              if 0xDC00 ≤ lo ∧ lo ≤ 0xDFFF then
                some (encodeUTF8 (0x10000 + (cp - 0xD800) * 1024 + (lo - 0xDC00)), 11)
              else none
            | _, _, _, _ => none)
         | _ => none
       else none
     | _, _, _, _ => none)
  | e :: _ => (escCharVal e).map (fun c => ([c], 1))
  | [] => none

/-- Body of a standards-compliant JSON string parser over UTF-8 bytes (RFC 8259
section 7), consuming everything after an opening quote: it stops at the closing
quote and returns the decoded bytes together with the unconsumed remainder; it
rejects raw control characters below 0x20, decodes escape sequences via
`unescapeOne`, copies well-formed multi-byte sequences, and rejects malformed
UTF-8 or a missing closing quote. After a multi-byte head the recursion
continues on `rest.drop (size - 1)`, the input past the decoded sequence. -/
def parseJSONStringBody : List Nat → Option (List Nat × List Nat)
  | [] => none
  | b :: rest =>
    if b = 34 then some ([], rest)
    else if b = 92 then
      match unescapeOne rest with
      | none => none
      | some (bs, k) => (parseJSONStringBody (rest.drop k)).map (fun p => (bs ++ p.1, p.2))
    else if b < 0x20 then none
    else if b < 0x80 then (parseJSONStringBody rest).map (fun p => (b :: p.1, p.2))
    else
      let rs := decodeRuneInString (b :: rest)
      if rs.1 = 0xFFFD ∧ rs.2 = 1 then none
      else
        (parseJSONStringBody (rest.drop (rs.2 - 1))).map
          (fun p => ((b :: rest).take rs.2 ++ p.1, p.2))
termination_by s => s.length
decreasing_by all_goals (simp [List.length_drop]; try omega)

/-- Standards-compliant JSON string parser: an opening quote followed by the body. -/
def jsonParseString (s : List Nat) : Option (List Nat × List Nat) :=
  match s with
  | 34 :: rest => parseJSONStringBody rest
  | _ => none

/-- Well-formed UTF-8 byte sequences, with exactly Go's accepted ranges
(no overlong encodings, no surrogates, nothing above U+10FFFF). -/
inductive ValidUTF8 : List Nat → Prop where
  | nil : ValidUTF8 []
  | ascii (b : Nat) (rest : List Nat) : b < 0x80 → ValidUTF8 rest → ValidUTF8 (b :: rest)
  | two (b0 b1 : Nat) (rest : List Nat) :
      0xC2 ≤ b0 → b0 ≤ 0xDF → 0x80 ≤ b1 → b1 ≤ 0xBF →
      ValidUTF8 rest → ValidUTF8 (b0 :: b1 :: rest)
  | three (b0 b1 b2 : Nat) (rest : List Nat) :
      0xE0 ≤ b0 → b0 ≤ 0xEF → acceptLo b0 ≤ b1 → b1 ≤ acceptHi b0 →
      0x80 ≤ b2 → b2 ≤ 0xBF →
      ValidUTF8 rest → ValidUTF8 (b0 :: b1 :: b2 :: rest)
  | four (b0 b1 b2 b3 : Nat) (rest : List Nat) :
      0xF0 ≤ b0 → b0 ≤ 0xF4 → acceptLo b0 ≤ b1 → b1 ≤ acceptHi b0 →
      0x80 ≤ b2 → b2 ≤ 0xBF → 0x80 ≤ b3 → b3 ≤ 0xBF →
      ValidUTF8 rest → ValidUTF8 (b0 :: b1 :: b2 :: b3 :: rest)

/-- Slow-path behaviour exactly as the claim describes it, as a partial function
returning the emitted bytes and the number of input bytes consumed: the five
two-character escapes, `\u00XX` for the other bytes below 0x20, multi-byte UTF-8
passed through, and `�` for an invalid encoding. Bytes covered by none of
those rules (notably 0x7F) have no prescribed behaviour, hence `none`. -/
def claimSlowC3 : List Nat → Option (List Nat × Nat)
  | [] => none
  | b :: rest =>
    if b = 34 then some ([92, 34], 1)
    else if b = 92 then some ([92, 92], 1)
    else if b = 10 then some ([92, 110], 1)
    else if b = 13 then some ([92, 114], 1)
    else if b = 9 then some ([92, 116], 1)
    else if b < 0x20 then some ([92, 117, 48, 48, hexDigit (b / 16), hexDigit (b % 16)], 1)
    else if 0x80 ≤ b then
      let rs := decodeRuneInString (b :: rest)
      if rs.1 = 0xFFFD ∧ rs.2 = 1 then some (escFFFD, 1)
      else some ((b :: rest).take rs.2, rs.2)
    else none

/-- Amended slow path: identical to `claimSlowC3` except that the `\u00XX` rule
also covers 0x7F, the one printable-range byte outside the safe set. -/
def claimSlowC3Amended : List Nat → Option (List Nat × Nat)
  | [] => none
  | b :: rest =>
    if b = 34 then some ([92, 34], 1)
    else if b = 92 then some ([92, 92], 1)
    else if b = 10 then some ([92, 110], 1)
    else if b = 13 then some ([92, 114], 1)
    else if b = 9 then some ([92, 116], 1)
    else if b < 0x20 ∨ b = 0x7F then some ([92, 117, 48, 48, hexDigit (b / 16), hexDigit (b % 16)], 1)
    else if 0x80 ≤ b then
      let rs := decodeRuneInString (b :: rest)
      if rs.1 = 0xFFFD ∧ rs.2 = 1 then some (escFFFD, 1)
      else some ((b :: rest).take rs.2, rs.2)
    else none

/-- Alternation of the two phases described by the claim: copy the maximal safe
run verbatim, then apply the given slow-path rule to the remainder, until the
whole input is consumed; `none` when the slow path has no applicable rule.
Fuel-indexed; one unit per alternation step. -/
def claimEscapeRun (slow : List Nat → Option (List Nat × Nat)) :
    Nat → List Nat → Option (List Nat)
  | 0, s => if s.isEmpty then some [] else none
  | fuel + 1, s =>
    let run := s.takeWhile safeSet
    let rest := s.dropWhile safeSet
    match rest with
    | [] => some run
    | _ :: _ =>
      match slow rest with
      | none => none
      | some (e, k) =>
        (claimEscapeRun slow fuel (rest.drop k)).map (fun out => (run ++ e) ++ out)

/-- Escape function as the claim describes it, for a given slow-path rule. -/
def claimEscape (slow : List Nat → Option (List Nat × Nat)) (s : List Nat) : Option (List Nat) :=
  claimEscapeRun slow (s.length + 1) s

/-- External renderings that produce no bytes; used to instantiate theorems at
concrete inputs. -/
def envNull : ExtEnc :=
  { floatFromBits := fun _ => [], durationSeconds := fun _ => [], timeRFC3339 := fun _ => [] }

/-- A root logger on sink 0, level cell 0, pool 0, with empty context. -/
def lgRoot : Logger := { output := 0, level := 0, pool := 0, context := [] }

/-- A fresh machine state whose every level cell holds `lvl`. -/
def stAt (lvl : Int) : MachineState :=
  { levels := fun _ => lvl, writes := [], acquires := [], releases := [], encodes := 0 }

theorem safeSet_iff {b : Nat} : safeSet b = true ↔ ((0x20 ≤ b ∧ b ≤ 0x7E) ∧ b ≠ 34 ∧ b ≠ 92) := by
  simp [safeSet]

theorem safeSet_false_of_ge {b : Nat} (hb : 0x80 ≤ b) : safeSet b = false := by
  simp only [safeSet, decide_eq_false_iff_not]
  omega

theorem acceptLo_ge (b0 : Nat) : 0x80 ≤ acceptLo b0 := by
  unfold acceptLo; split_ifs <;> norm_num

theorem escGo_nil (fuel : Nat) (dst : List Nat) : escGo fuel dst [] = dst := by
  cases fuel <;> simp [escGo]

theorem escGo_delta : ∀ (fuel : Nat) (s dst : List Nat), escGo fuel dst s = dst ++ escGo fuel [] s := by
  intro fuel
  induction fuel with
  | zero => intro s dst; simp [escGo]
  | succ n ih =>
    intro s dst
    cases h : s.dropWhile safeSet with
    | nil => simp [escGo, h]
    | cons b t =>
      simp only [escGo, h]
      by_cases hb : 0x80 ≤ b
      · simp only [if_pos hb]
        rw [ih ((b :: t).drop (decodeRuneInString (b :: t)).2),
          ih ((b :: t).drop (decodeRuneInString (b :: t)).2)
            (([] ++ s.takeWhile safeSet) ++ _)]
        simp
      · simp only [if_neg hb]
        rw [ih t ((dst ++ s.takeWhile safeSet) ++ escByte b),
          ih t (([] ++ s.takeWhile safeSet) ++ escByte b)]
        simp

theorem decodeRune_snd_pos (b : Nat) (rest : List Nat) :
    1 ≤ (decodeRuneInString (b :: rest)).2 := by
  unfold decodeRuneInString
  repeat' split <;> first | simp_all | norm_num

theorem length_dropWhile_le (p : Nat → Bool) (l : List Nat) :
    (l.dropWhile p).length ≤ l.length := by
  induction l with
  | nil => simp
  | cons a t ih =>
    rw [List.dropWhile_cons]
    split
    · simp; omega
    · simp

theorem escGo_irrel : ∀ (f1 f2 : Nat) (s dst : List Nat),
    s.length ≤ f1 → s.length ≤ f2 → escGo f1 dst s = escGo f2 dst s := by
  intro f1
  induction f1 with
  | zero =>
    intro f2 s dst h1 _
    have : s = [] := List.length_eq_zero.mp (Nat.le_zero.mp h1)
    subst this
    rw [escGo_nil, escGo_nil]
  | succ n ih =>
    intro f2 s dst h1 h2
    cases s with
    | nil => rw [escGo_nil, escGo_nil]
    | cons a s' =>
      cases f2 with
      | zero => simp at h2
      | succ m =>
        have hdw := length_dropWhile_le safeSet (a :: s')
        cases h : (a :: s').dropWhile safeSet with
        | nil => simp [escGo, h]
        | cons b t =>
          have hbt : (b :: t).length ≤ (a :: s').length := by rw [← h]; exact hdw
          simp only [escGo, h]
          by_cases hb : 0x80 ≤ b
          · simp only [if_pos hb]
            apply ih
            · have := decodeRune_snd_pos b t
              simp only [List.length_drop]
              simp only [List.length_cons] at hbt h1 ⊢
              omega
            · have := decodeRune_snd_pos b t
              simp only [List.length_drop]
              simp only [List.length_cons] at hbt h2 ⊢
              omega
          · simp only [if_neg hb]
            apply ih
            · simp only [List.length_cons] at hbt h1 ⊢; omega
            · simp only [List.length_cons] at hbt h2 ⊢; omega

theorem appendEscapedString_nil (dst : List Nat) : appendEscapedString dst [] = dst := by
  simp [appendEscapedString, escGo_nil]

theorem appendEscapedString_delta (dst s : List Nat) :
    appendEscapedString dst s = dst ++ appendEscapedString [] s := by
  unfold appendEscapedString
  exact escGo_delta s.length s dst

theorem appendJSONString_delta (dst s : List Nat) :
    appendJSONString dst s = dst ++ appendJSONString [] s := by
  unfold appendJSONString
  rw [appendEscapedString_delta (dst ++ [34]), appendEscapedString_delta ([] ++ [34])]
  simp

theorem appendKey_delta (dst key : List Nat) :
    appendKey dst key = dst ++ appendKey [] key := by
  unfold appendKey
  rw [appendEscapedString_delta (dst ++ [34]), appendEscapedString_delta ([] ++ [34])]
  simp

theorem appendBool_delta (dst : List Nat) (v : Bool) :
    appendBool dst v = dst ++ appendBool [] v := by
  unfold appendBool
  cases v <;> simp

theorem appendInt64_delta (dst : List Nat) (v : Int) :
    appendInt64 dst v = dst ++ appendInt64 [] v := by
  unfold appendInt64
  split_ifs <;> simp

theorem appendField_delta (env : ExtEnc) (dst : List Nat) (f : LogField) :
    appendField env dst f = dst ++ appendField env [] f := by
  obtain ⟨key, ft, iv, str, bv⟩ := f
  unfold appendField
  cases ft <;> simp only []
  case StringType =>
    rw [appendKey_delta dst, appendJSONString_delta (dst ++ appendKey [] key),
      appendJSONString_delta (appendKey [] key)]
    simp
  case IntType =>
    rw [appendKey_delta dst, appendInt64_delta (dst ++ appendKey [] key),
      appendInt64_delta (appendKey [] key)]
    simp
  case Int64Type =>
    rw [appendKey_delta dst, appendInt64_delta (dst ++ appendKey [] key),
      appendInt64_delta (appendKey [] key)]
    simp
  case Float64Type =>
    rw [appendKey_delta dst]
    simp
  case BoolType =>
    rw [appendKey_delta dst, appendBool_delta (dst ++ appendKey [] key),
      appendBool_delta (appendKey [] key)]
    simp
  case DurationType =>
    rw [appendKey_delta dst]
    simp
  case ErrorType =>
    rw [appendKey_delta dst, appendJSONString_delta (dst ++ appendKey [] key),
      appendJSONString_delta (appendKey [] key)]
    simp
  case TimeType =>
    rw [appendKey_delta dst]
    simp
  case BytesType =>
    rw [appendKey_delta dst, appendJSONString_delta (dst ++ appendKey [] key),
      appendJSONString_delta (appendKey [] key)]
    simp

theorem escGo_safe (fuel : Nat) (dst : List Nat) {b : Nat} (t : List Nat)
    (hb : safeSet b = true) :
    escGo (fuel + 1) dst (b :: t) = escGo (fuel + 1) (dst ++ [b]) t := by
  have htake : (b :: t).takeWhile safeSet = b :: t.takeWhile safeSet := by
    simp [List.takeWhile_cons, hb]
  have hdrop : (b :: t).dropWhile safeSet = t.dropWhile safeSet := by
    simp [List.dropWhile_cons, hb]
  simp only [escGo, htake, hdrop]
  cases h : t.dropWhile safeSet with
  | nil => simp
  | cons c u =>
    have harr : dst ++ b :: t.takeWhile safeSet = (dst ++ [b]) ++ t.takeWhile safeSet := by simp
    by_cases hc : 0x80 ≤ c
    · simp only [if_pos hc, harr]
    · simp only [if_neg hc, harr]

theorem appendEscapedString_safe_cons {b : Nat} (t : List Nat) (hb : safeSet b = true)
    (dst : List Nat) :
    appendEscapedString dst (b :: t) = (dst ++ [b]) ++ appendEscapedString [] t := by
  unfold appendEscapedString
  rw [show (b :: t).length = t.length + 1 from rfl, escGo_safe t.length dst t hb]
  rw [escGo_irrel (t.length + 1) t.length t _ (by omega) (by omega)]
  exact escGo_delta t.length t (dst ++ [b])

theorem appendEscapedString_unsafe_ascii {b : Nat} (t : List Nat)
    (hb : safeSet b = false) (hlt : b < 0x80) (dst : List Nat) :
    appendEscapedString dst (b :: t) = (dst ++ escByte b) ++ appendEscapedString [] t := by
  unfold appendEscapedString
  have htake : (b :: t).takeWhile safeSet = [] := by
    simp [List.takeWhile_cons, hb]
  have hdrop : (b :: t).dropWhile safeSet = b :: t := by
    simp [List.dropWhile_cons, hb]
  rw [show (b :: t).length = t.length + 1 from rfl]
  simp only [escGo, htake, hdrop]
  rw [if_neg (by omega)]
  rw [escGo_delta t.length t ((dst ++ []) ++ escByte b)]
  simp

theorem appendEscapedString_hi {b : Nat} (t : List Nat) (hb : 0x80 ≤ b) (dst : List Nat) :
    appendEscapedString dst (b :: t) =
      (dst ++
        (if (decodeRuneInString (b :: t)).1 = 0xFFFD ∧ (decodeRuneInString (b :: t)).2 = 1
          then escFFFD else (b :: t).take (decodeRuneInString (b :: t)).2))
      ++ appendEscapedString [] ((b :: t).drop (decodeRuneInString (b :: t)).2) := by
  unfold appendEscapedString
  have hsf : safeSet b = false := safeSet_false_of_ge hb
  have htake : (b :: t).takeWhile safeSet = [] := by
    simp [List.takeWhile_cons, hsf]
  have hdrop : (b :: t).dropWhile safeSet = b :: t := by
    simp [List.dropWhile_cons, hsf]
  rw [show (b :: t).length = t.length + 1 from rfl]
  simp only [escGo, htake, hdrop]
  rw [if_pos hb]
  have hpos := decodeRune_snd_pos b t
  rw [escGo_irrel t.length ((b :: t).drop (decodeRuneInString (b :: t)).2).length
    ((b :: t).drop (decodeRuneInString (b :: t)).2) _ (by simp; omega) (by omega)]
  rw [escGo_delta]
  simp

theorem decode_two {b0 b1 : Nat} (rest : List Nat)
    (h0 : 0xC2 ≤ b0) (h1 : b0 ≤ 0xDF) (h2 : 0x80 ≤ b1) (h3 : b1 ≤ 0xBF) :
    decodeRuneInString (b0 :: b1 :: rest) = ((b0 % 32) * 64 + b1 % 64, 2) := by
  have hlo : acceptLo b0 = 0x80 := by unfold acceptLo; split_ifs <;> omega
  have hhi : acceptHi b0 = 0xBF := by unfold acceptHi; split_ifs <;> omega
  simp only [decodeRuneInString, hlo, hhi]
  rw [if_neg (by omega), if_neg (by omega), if_neg (by omega), if_pos (by omega)]

theorem decode_three {b0 b1 b2 : Nat} (rest : List Nat)
    (h0 : 0xE0 ≤ b0) (h1 : b0 ≤ 0xEF) (h2 : acceptLo b0 ≤ b1) (h3 : b1 ≤ acceptHi b0)
    (h4 : 0x80 ≤ b2) (h5 : b2 ≤ 0xBF) :
    decodeRuneInString (b0 :: b1 :: b2 :: rest) =
      ((b0 % 16) * 4096 + (b1 % 64) * 64 + b2 % 64, 3) := by
  simp only [decodeRuneInString]
  rw [if_neg (by omega), if_neg (by omega),
    if_neg (by simp only [not_or, not_lt]; exact ⟨h2, h3⟩),
    if_neg (by omega), if_neg (by omega), if_pos (by omega)]

theorem decode_four {b0 b1 b2 b3 : Nat} (rest : List Nat)
    (h0 : 0xF0 ≤ b0) (h1 : b0 ≤ 0xF4) (h2 : acceptLo b0 ≤ b1) (h3 : b1 ≤ acceptHi b0)
    (h4 : 0x80 ≤ b2) (h5 : b2 ≤ 0xBF) (h6 : 0x80 ≤ b3) (h7 : b3 ≤ 0xBF) :
    decodeRuneInString (b0 :: b1 :: b2 :: b3 :: rest) =
      ((b0 % 8) * 262144 + (b1 % 64) * 4096 + (b2 % 64) * 64 + b3 % 64, 4) := by
  simp only [decodeRuneInString]
  rw [if_neg (by omega), if_neg (by omega),
    if_neg (by simp only [not_or, not_lt]; exact ⟨h2, h3⟩),
    if_neg (by omega), if_neg (by omega), if_neg (by omega), if_neg (by omega)]

theorem appendEscapedString_two {b0 b1 : Nat} (t : List Nat)
    (h0 : 0xC2 ≤ b0) (h1 : b0 ≤ 0xDF) (h2 : 0x80 ≤ b1) (h3 : b1 ≤ 0xBF) (dst : List Nat) :
    appendEscapedString dst (b0 :: b1 :: t) =
      (dst ++ [b0, b1]) ++ appendEscapedString [] t := by
  rw [appendEscapedString_hi (b1 :: t) (by omega) dst, decode_two t h0 h1 h2 h3]
  norm_num

theorem appendEscapedString_three {b0 b1 b2 : Nat} (t : List Nat)
    (h0 : 0xE0 ≤ b0) (h1 : b0 ≤ 0xEF) (h2 : acceptLo b0 ≤ b1) (h3 : b1 ≤ acceptHi b0)
    (h4 : 0x80 ≤ b2) (h5 : b2 ≤ 0xBF) (dst : List Nat) :
    appendEscapedString dst (b0 :: b1 :: b2 :: t) =
      (dst ++ [b0, b1, b2]) ++ appendEscapedString [] t := by
  rw [appendEscapedString_hi (b1 :: b2 :: t) (by omega) dst,
    decode_three t h0 h1 h2 h3 h4 h5]
  norm_num

theorem appendEscapedString_four {b0 b1 b2 b3 : Nat} (t : List Nat)
    (h0 : 0xF0 ≤ b0) (h1 : b0 ≤ 0xF4) (h2 : acceptLo b0 ≤ b1) (h3 : b1 ≤ acceptHi b0)
    (h4 : 0x80 ≤ b2) (h5 : b2 ≤ 0xBF) (h6 : 0x80 ≤ b3) (h7 : b3 ≤ 0xBF) (dst : List Nat) :
    appendEscapedString dst (b0 :: b1 :: b2 :: b3 :: t) =
      (dst ++ [b0, b1, b2, b3]) ++ appendEscapedString [] t := by
  rw [appendEscapedString_hi (b1 :: b2 :: b3 :: t) (by omega) dst,
    decode_four t h0 h1 h2 h3 h4 h5 h6 h7]
  norm_num

theorem hexVal_hexDigit : ∀ x : Nat, x < 16 → hexVal (hexDigit x) = some x := by decide

theorem encodeUTF8_ascii {b : Nat} (hb : b < 0x80) : encodeUTF8 b = [b] := by
  simp [encodeUTF8, hb]

theorem parse_quote (t : List Nat) : parseJSONStringBody (34 :: t) = some ([], t) := by
  simp [parseJSONStringBody]

theorem parse_safe {b : Nat} (t : List Nat) (hb : safeSet b = true) :
    parseJSONStringBody (b :: t) = (parseJSONStringBody t).map (fun p => (b :: p.1, p.2)) := by
  obtain ⟨⟨hge, hle⟩, hq, hbs⟩ := safeSet_iff.mp hb
  simp only [parseJSONStringBody]
  rw [if_neg hq, if_neg hbs, if_neg (by omega), if_pos (by omega)]

theorem parse_u00 {b : Nat} (t : List Nat) (hb : b < 0x80) :
    parseJSONStringBody (92 :: 117 :: 48 :: 48 :: hexDigit (b / 16) :: hexDigit (b % 16) :: t) =
      (parseJSONStringBody t).map (fun p => (b :: p.1, p.2)) := by
  have e1 : hexVal (hexDigit (b / 16)) = some (b / 16) := hexVal_hexDigit _ (by omega)
  have e2 : hexVal (hexDigit (b % 16)) = some (b % 16) := hexVal_hexDigit _ (by omega)
  have e0 : hexVal 48 = some 0 := by simp [hexVal]
  have hcp : ((0 * 16 + 0) * 16 + b / 16) * 16 + b % 16 = b := by omega
  have hu : unescapeOne (117 :: 48 :: 48 :: hexDigit (b / 16) :: hexDigit (b % 16) :: t) =
      some ([b], 5) := by
    simp only [unescapeOne, e0, e1, e2, hcp]
    rw [if_pos (by omega), encodeUTF8_ascii hb]
  rw [parseJSONStringBody.eq_2, if_neg (by norm_num), if_pos rfl, hu]
  simp [List.drop]

theorem parse_two {b0 b1 : Nat} (t : List Nat)
    (h0 : 0xC2 ≤ b0) (h1 : b0 ≤ 0xDF) (h2 : 0x80 ≤ b1) (h3 : b1 ≤ 0xBF) :
    parseJSONStringBody (b0 :: b1 :: t) =
      (parseJSONStringBody t).map (fun p => (b0 :: b1 :: p.1, p.2)) := by
  simp only [parseJSONStringBody]
  rw [if_neg (by omega), if_neg (by omega), if_neg (by omega), if_neg (by omega)]
  simp only [decode_two t h0 h1 h2 h3]
  rw [if_neg (by simp)]
  simp

theorem parse_three {b0 b1 b2 : Nat} (t : List Nat)
    (h0 : 0xE0 ≤ b0) (h1 : b0 ≤ 0xEF) (h2 : acceptLo b0 ≤ b1) (h3 : b1 ≤ acceptHi b0)
    (h4 : 0x80 ≤ b2) (h5 : b2 ≤ 0xBF) :
    parseJSONStringBody (b0 :: b1 :: b2 :: t) =
      (parseJSONStringBody t).map (fun p => (b0 :: b1 :: b2 :: p.1, p.2)) := by
  simp only [parseJSONStringBody]
  rw [if_neg (by omega), if_neg (by omega), if_neg (by omega), if_neg (by omega)]
  simp only [decode_three t h0 h1 h2 h3 h4 h5]
  rw [if_neg (by simp)]
  simp

theorem parse_four {b0 b1 b2 b3 : Nat} (t : List Nat)
    (h0 : 0xF0 ≤ b0) (h1 : b0 ≤ 0xF4) (h2 : acceptLo b0 ≤ b1) (h3 : b1 ≤ acceptHi b0)
    (h4 : 0x80 ≤ b2) (h5 : b2 ≤ 0xBF) (h6 : 0x80 ≤ b3) (h7 : b3 ≤ 0xBF) :
    parseJSONStringBody (b0 :: b1 :: b2 :: b3 :: t) =
      (parseJSONStringBody t).map (fun p => (b0 :: b1 :: b2 :: b3 :: p.1, p.2)) := by
  simp only [parseJSONStringBody]
  rw [if_neg (by omega), if_neg (by omega), if_neg (by omega), if_neg (by omega)]
  simp only [decode_four t h0 h1 h2 h3 h4 h5 h6 h7]
  rw [if_neg (by simp)]
  simp

theorem roundtrip_body {s : List Nat} (hs : ValidUTF8 s) :
    ∀ t, parseJSONStringBody (appendEscapedString [] s ++ 34 :: t) = some (s, t) := by
  induction hs with
  | nil =>
    intro t
    rw [appendEscapedString_nil]
    simpa using parse_quote t
  | ascii b rest hb hrest ih =>
    intro t
    by_cases hsafe : safeSet b = true
    · rw [appendEscapedString_safe_cons rest hsafe []]
      have : (([] ++ [b]) ++ appendEscapedString [] rest) ++ 34 :: t =
          b :: (appendEscapedString [] rest ++ 34 :: t) := by simp
      rw [this, parse_safe _ hsafe, ih t]
      rfl
    · have hsf : safeSet b = false := by
        cases h : safeSet b with
        | true => exact absurd h hsafe
        | false => rfl
      rw [appendEscapedString_unsafe_ascii rest hsf hb []]
      by_cases h34 : b = 34
      · subst h34
        have : (([] ++ escByte 34) ++ appendEscapedString [] rest) ++ 34 :: t =
            92 :: 34 :: (appendEscapedString [] rest ++ 34 :: t) := by simp [escByte]
        rw [this, parseJSONStringBody.eq_2, if_neg (by norm_num), if_pos rfl]
        have hu : unescapeOne (34 :: (appendEscapedString [] rest ++ 34 :: t)) =
            some ([34], 1) := by simp [unescapeOne, escCharVal]
        rw [hu]
        simp [ih t]
      · by_cases h92 : b = 92
        · subst h92
          have : (([] ++ escByte 92) ++ appendEscapedString [] rest) ++ 34 :: t =
              92 :: 92 :: (appendEscapedString [] rest ++ 34 :: t) := by simp [escByte]
          rw [this, parseJSONStringBody.eq_2, if_neg (by norm_num), if_pos rfl]
          have hu : unescapeOne (92 :: (appendEscapedString [] rest ++ 34 :: t)) =
              some ([92], 1) := by simp [unescapeOne, escCharVal]
          rw [hu]
          simp [ih t]
        · by_cases h10 : b = 10
          · subst h10
            have : (([] ++ escByte 10) ++ appendEscapedString [] rest) ++ 34 :: t =
                92 :: 110 :: (appendEscapedString [] rest ++ 34 :: t) := by simp [escByte]
            rw [this, parseJSONStringBody.eq_2, if_neg (by norm_num), if_pos rfl]
            have hu : unescapeOne (110 :: (appendEscapedString [] rest ++ 34 :: t)) =
                some ([10], 1) := by simp [unescapeOne, escCharVal]
            rw [hu]
            simp [ih t]
          · by_cases h13 : b = 13
            · subst h13
              have : (([] ++ escByte 13) ++ appendEscapedString [] rest) ++ 34 :: t =
                  92 :: 114 :: (appendEscapedString [] rest ++ 34 :: t) := by simp [escByte]
              rw [this, parseJSONStringBody.eq_2, if_neg (by norm_num), if_pos rfl]
              have hu : unescapeOne (114 :: (appendEscapedString [] rest ++ 34 :: t)) =
                  some ([13], 1) := by simp [unescapeOne, escCharVal]
              rw [hu]
              simp [ih t]
            · by_cases h9 : b = 9
              · subst h9
                have : (([] ++ escByte 9) ++ appendEscapedString [] rest) ++ 34 :: t =
                    92 :: 116 :: (appendEscapedString [] rest ++ 34 :: t) := by simp [escByte]
                rw [this, parseJSONStringBody.eq_2, if_neg (by norm_num), if_pos rfl]
                have hu : unescapeOne (116 :: (appendEscapedString [] rest ++ 34 :: t)) =
                    some ([9], 1) := by simp [unescapeOne, escCharVal]
                rw [hu]
                simp [ih t]
              · have hesc : escByte b =
                    [92, 117, 48, 48, hexDigit (b / 16), hexDigit (b % 16)] := by
                  unfold escByte
                  rw [if_neg h34, if_neg h92, if_neg h10, if_neg h13, if_neg h9]
                have : (([] ++ escByte b) ++ appendEscapedString [] rest) ++ 34 :: t =
                    92 :: 117 :: 48 :: 48 :: hexDigit (b / 16) :: hexDigit (b % 16) ::
                      (appendEscapedString [] rest ++ 34 :: t) := by simp [hesc]
                rw [this, parse_u00 _ hb, ih t]
                rfl
  | two b0 b1 rest h0 h1 h2 h3 hrest ih =>
    intro t
    rw [appendEscapedString_two rest h0 h1 h2 h3 []]
    have : (([] ++ [b0, b1]) ++ appendEscapedString [] rest) ++ 34 :: t =
        b0 :: b1 :: (appendEscapedString [] rest ++ 34 :: t) := by simp
    rw [this, parse_two _ h0 h1 h2 h3, ih t]
    rfl
  | three b0 b1 b2 rest h0 h1 h2 h3 h4 h5 hrest ih =>
    intro t
    rw [appendEscapedString_three rest h0 h1 h2 h3 h4 h5 []]
    have : (([] ++ [b0, b1, b2]) ++ appendEscapedString [] rest) ++ 34 :: t =
        b0 :: b1 :: b2 :: (appendEscapedString [] rest ++ 34 :: t) := by simp
    rw [this, parse_three _ h0 h1 h2 h3 h4 h5, ih t]
    rfl
  | four b0 b1 b2 b3 rest h0 h1 h2 h3 h4 h5 h6 h7 hrest ih =>
    intro t
    rw [appendEscapedString_four rest h0 h1 h2 h3 h4 h5 h6 h7 []]
    have : (([] ++ [b0, b1, b2, b3]) ++ appendEscapedString [] rest) ++ 34 :: t =
        b0 :: b1 :: b2 :: b3 :: (appendEscapedString [] rest ++ 34 :: t) := by simp
    rw [this, parse_four _ h0 h1 h2 h3 h4 h5 h6 h7, ih t]
    rfl

set_option maxHeartbeats 1600000 in
theorem decode_shape {b : Nat} (t : List Nat) (_hb : 0x80 ≤ b) :
    (decodeRuneInString (b :: t)).2 = 1 ∨
    (∃ b1 t1, t = b1 :: t1 ∧ 0x80 ≤ b1 ∧ (decodeRuneInString (b :: t)).2 = 2) ∨
    (∃ b1 b2 t2, t = b1 :: b2 :: t2 ∧ 0x80 ≤ b1 ∧ 0x80 ≤ b2 ∧
      (decodeRuneInString (b :: t)).2 = 3) ∨
    (∃ b1 b2 b3 t3, t = b1 :: b2 :: b3 :: t3 ∧ 0x80 ≤ b1 ∧ 0x80 ≤ b2 ∧ 0x80 ≤ b3 ∧
      (decodeRuneInString (b :: t)).2 = 4) := by
  have hlo := acceptLo_ge b
  rcases t with _ | ⟨b1, _ | ⟨b2, _ | ⟨b3, t3⟩⟩⟩ <;>
    · simp only [decodeRuneInString]
      split_ifs <;> first
        | (left; rfl)
        | (right; left; exact ⟨_, _, rfl, by omega, rfl⟩)
        | (right; right; left; exact ⟨_, _, _, rfl, by omega, by omega, rfl⟩)
        | (right; right; right; exact ⟨_, _, _, _, rfl, by omega, by omega, by omega, rfl⟩)

theorem hexDigit_lt (x : Nat) (hx : x < 16) : hexDigit x < 103 := by
  unfold hexDigit; split <;> omega

theorem escByte_no_del {b : Nat} (hb : b < 0x80) : 127 ∉ escByte b := by
  have h1 := hexDigit_lt (b / 16) (by omega)
  have h2 := hexDigit_lt (b % 16) (by omega)
  unfold escByte
  split_ifs <;> (intro hmem; simp only [List.mem_cons, List.not_mem_nil, or_false] at hmem) <;>
    omega

theorem escFFFD_no_del : 127 ∉ escFFFD := by decide

theorem esc_no_del : ∀ (n : Nat) (s : List Nat), s.length ≤ n →
    127 ∉ appendEscapedString [] s := by
  intro n
  induction n with
  | zero =>
    intro s hs
    have : s = [] := List.length_eq_zero.mp (Nat.le_zero.mp hs)
    subst this
    rw [appendEscapedString_nil]
    exact List.not_mem_nil 127
  | succ n ih =>
    intro s hs
    cases s with
    | nil => rw [appendEscapedString_nil]; exact List.not_mem_nil 127
    | cons b t =>
      simp only [List.length_cons] at hs
      by_cases hsafe : safeSet b = true
      · rw [appendEscapedString_safe_cons t hsafe []]
        intro hmem
        rcases List.mem_append.mp hmem with h | h
        · obtain ⟨⟨_, hle⟩, _, _⟩ := safeSet_iff.mp hsafe
          simp at h
          omega
        · exact ih t (by omega) h
      · by_cases hhi : 0x80 ≤ b
        · rw [appendEscapedString_hi t hhi []]
          intro hmem
          rcases List.mem_append.mp hmem with h | h
          · rw [List.nil_append] at h
            rcases Decidable.em
                ((decodeRuneInString (b :: t)).1 = 0xFFFD ∧
                  (decodeRuneInString (b :: t)).2 = 1) with hc | hc
            · rw [if_pos hc] at h
              exact escFFFD_no_del h
            · rw [if_neg hc] at h
              rcases decode_shape t hhi with h1 | ⟨b1, t1, ht, hb1, h2⟩ |
                  ⟨b1, b2, t2, ht, hb1, hb2, h3⟩ | ⟨b1, b2, b3, t3, ht, hb1, hb2, hb3, h4⟩
              · rw [h1] at h; simp at h; omega
              · subst ht; rw [h2] at h; simp at h; omega
              · subst ht; rw [h3] at h; simp at h; omega
              · subst ht; rw [h4] at h; simp at h; omega
          · have hpos := decodeRune_snd_pos b t
            refine ih _ ?_ h
            simp only [List.length_drop, List.length_cons]
            omega
        · have h_lt : b < 0x80 := by omega
          have hsf : safeSet b = false := by
            cases h : safeSet b with
            | true => exact absurd h hsafe
            | false => rfl
          rw [appendEscapedString_unsafe_ascii t hsf h_lt []]
          intro hmem
          rcases List.mem_append.mp hmem with h | h
          · rw [List.nil_append] at h
            exact escByte_no_del h_lt h
          · exact ih t (by omega) h

theorem dropWhile_head_false (p : Nat → Bool) :
    ∀ (s : List Nat) {b : Nat} {t : List Nat}, s.dropWhile p = b :: t → p b = false := by
  intro s
  induction s with
  | nil => intro b t h; simp at h
  | cons a u ih =>
    intro b t h
    rw [List.dropWhile_cons] at h
    split at h
    · exact ih h
    · cases h
      cases hpa : p a with
      | true => simp [hpa] at *
      | false => rfl

theorem dropWhile_length_le_of_eq {p : Nat → Bool} {s r : List Nat}
    (h : s.dropWhile p = r) : r.length ≤ s.length := by
  rw [← h]; exact length_dropWhile_le p s

theorem esc_all_safe (s : List Nat) (h : s.dropWhile safeSet = []) :
    appendEscapedString [] s = s.takeWhile safeSet := by
  cases s with
  | nil => simp [appendEscapedString_nil]
  | cons a u =>
    rw [show appendEscapedString [] (a :: u) = escGo (u.length + 1) [] (a :: u) from rfl]
    simp only [escGo, h]
    simp

theorem esc_run_decomp (s : List Nat) {b : Nat} {t : List Nat}
    (h : s.dropWhile safeSet = b :: t) :
    appendEscapedString [] s = s.takeWhile safeSet ++ appendEscapedString [] (b :: t) := by
  have hs : s ≠ [] := by intro he; subst he; simp at h
  have hb : safeSet b = false := dropWhile_head_false safeSet s h
  have hlen : (b :: t).length ≤ s.length := dropWhile_length_le_of_eq h
  obtain ⟨a, u, rfl⟩ : ∃ a u, s = a :: u := by
    cases s with
    | nil => exact absurd rfl hs
    | cons a u => exact ⟨a, u, rfl⟩
  rw [show appendEscapedString [] (a :: u) = escGo (u.length + 1) [] (a :: u) from rfl]
  simp only [escGo, h]
  by_cases hhi : 0x80 ≤ b
  · rw [if_pos hhi]
    have hpos := decodeRune_snd_pos b t
    rw [escGo_irrel u.length ((b :: t).drop (decodeRuneInString (b :: t)).2).length _ _
      (by simp only [List.length_drop, List.length_cons] at hlen ⊢; omega) (by omega)]
    rw [show escGo ((b :: t).drop (decodeRuneInString (b :: t)).2).length
        ((([] : List Nat) ++ (a :: u).takeWhile safeSet) ++
          (if (decodeRuneInString (b :: t)).1 = 0xFFFD ∧ (decodeRuneInString (b :: t)).2 = 1
            then escFFFD else (b :: t).take (decodeRuneInString (b :: t)).2))
        ((b :: t).drop (decodeRuneInString (b :: t)).2) =
      appendEscapedString
        ((([] : List Nat) ++ (a :: u).takeWhile safeSet) ++
          (if (decodeRuneInString (b :: t)).1 = 0xFFFD ∧ (decodeRuneInString (b :: t)).2 = 1
            then escFFFD else (b :: t).take (decodeRuneInString (b :: t)).2))
        ((b :: t).drop (decodeRuneInString (b :: t)).2) from rfl]
    rw [appendEscapedString_delta, appendEscapedString_hi t hhi []]
    simp
  · rw [if_neg hhi]
    rw [escGo_irrel u.length t.length t _
      (by simp only [List.length_cons] at hlen ⊢; omega) (by omega)]
    rw [show escGo t.length ((([] : List Nat) ++ (a :: u).takeWhile safeSet) ++ escByte b) t =
      appendEscapedString ((([] : List Nat) ++ (a :: u).takeWhile safeSet) ++ escByte b) t
      from rfl]
    have hblt : b < 0x80 := by omega
    rw [appendEscapedString_delta, appendEscapedString_unsafe_ascii t hb hblt []]
    simp

theorem slowAmended_ascii {b : Nat} (t : List Nat) (hsf : safeSet b = false)
    (hlt : b < 0x80) :
    claimSlowC3Amended (b :: t) = some (escByte b, 1) := by
  have hns : ¬((0x20 ≤ b ∧ b ≤ 0x7E) ∧ b ≠ 34 ∧ b ≠ 92) := by
    intro hc
    rw [safeSet_iff.mpr hc] at hsf
    cases hsf
  simp only [claimSlowC3Amended, escByte]
  split_ifs <;> first | rfl | omega

theorem slowAmended_hi {b : Nat} (t : List Nat) (hhi : 0x80 ≤ b) :
    claimSlowC3Amended (b :: t) =
      some ((if (decodeRuneInString (b :: t)).1 = 0xFFFD ∧ (decodeRuneInString (b :: t)).2 = 1
              then escFFFD else (b :: t).take (decodeRuneInString (b :: t)).2),
            (decodeRuneInString (b :: t)).2) := by
  simp only [claimSlowC3Amended]
  rw [if_neg (by omega), if_neg (by omega), if_neg (by omega), if_neg (by omega),
    if_neg (by omega), if_neg (by omega), if_pos hhi]
  rcases Decidable.em
      ((decodeRuneInString (b :: t)).1 = 0xFFFD ∧ (decodeRuneInString (b :: t)).2 = 1)
    with hc | hc
  · rw [if_pos hc, if_pos hc, hc.2]
  · rw [if_neg hc, if_neg hc]

theorem claimEscapeRun_amended : ∀ (fuel : Nat) (s : List Nat), s.length < fuel →
    claimEscapeRun claimSlowC3Amended fuel s = some (appendEscapedString [] s) := by
  intro fuel
  induction fuel with
  | zero => intro s hs; omega
  | succ n ih =>
    intro s hs
    cases h : s.dropWhile safeSet with
    | nil =>
      simp only [claimEscapeRun, h]
      rw [esc_all_safe s h]
    | cons b t =>
      have hb : safeSet b = false := dropWhile_head_false safeSet s h
      have hlen : (b :: t).length ≤ s.length := dropWhile_length_le_of_eq h
      simp only [claimEscapeRun, h]
      by_cases hhi : 0x80 ≤ b
      · rw [slowAmended_hi t hhi]
        dsimp only
        have hpos := decodeRune_snd_pos b t
        rw [ih ((b :: t).drop (decodeRuneInString (b :: t)).2)
          (by simp only [List.length_drop, List.length_cons] at hlen ⊢; omega)]
        rw [esc_run_decomp s h, appendEscapedString_hi t hhi []]
        simp
      · have hblt : b < 0x80 := by omega
        rw [slowAmended_ascii t hb hblt]
        dsimp only
        rw [show (b :: t).drop 1 = t from rfl]
        rw [ih t (by simp only [List.length_cons] at hlen; omega)]
        rw [esc_run_decomp s h, appendEscapedString_unsafe_ascii t hb hblt []]
        simp

theorem intLoop_acc (n : Nat) : ∀ acc, intLoop n acc = intLoop n [] ++ acc := by
  induction n using Nat.strong_induction_on with
  | _ n ih =>
    intro acc
    by_cases h : n = 0
    · subst h; simp [intLoop]
    · have hlt : n / 10 < n := Nat.div_lt_self (Nat.pos_of_ne_zero h) (by norm_num)
      unfold intLoop
      rw [if_neg h, if_neg h]
      rw [ih (n / 10) hlt ((n % 10 + 48) :: acc), ih (n / 10) hlt [n % 10 + 48]]
      simp

theorem intLoop_digits (n : Nat) : ∀ d ∈ intLoop n [], 48 ≤ d ∧ d ≤ 57 := by
  induction n using Nat.strong_induction_on with
  | _ n ih =>
    by_cases h : n = 0
    · subst h; simp [intLoop]
    · have hlt : n / 10 < n := Nat.div_lt_self (Nat.pos_of_ne_zero h) (by norm_num)
      unfold intLoop
      rw [if_neg h, intLoop_acc (n / 10)]
      intro d hd
      rcases List.mem_append.mp hd with hm | hm
      · exact ih (n / 10) hlt d hm
      · simp at hm
        omega

theorem intLoop_ne_nil {n : Nat} (h : n ≠ 0) : intLoop n [] ≠ [] := by
  unfold intLoop
  rw [if_neg h, intLoop_acc (n / 10)]
  simp

theorem intLoop_head (n : Nat) : n ≠ 0 → (intLoop n []).head? ≠ some 48 := by
  induction n using Nat.strong_induction_on with
  | _ n ih =>
    intro h
    have hlt : n / 10 < n := Nat.div_lt_self (Nat.pos_of_ne_zero h) (by norm_num)
    unfold intLoop
    rw [if_neg h, intLoop_acc (n / 10)]
    by_cases h10 : n / 10 = 0
    · rw [h10]
      have : intLoop 0 ([] : List Nat) = [] := by simp [intLoop]
      rw [this]
      simp only [List.nil_append, List.head?_cons, ne_eq, Option.some.injEq]
      omega
    · obtain ⟨x, xs, hx⟩ := List.exists_cons_of_ne_nil (intLoop_ne_nil h10)
      have hh := ih (n / 10) hlt h10
      rw [hx] at hh ⊢
      simp only [List.head?_cons, ne_eq, Option.some.injEq] at hh ⊢
      simpa using hh

theorem intLoop_val (n : Nat) :
    (intLoop n []).foldl (fun a d => a * 10 + (d - 48)) 0 = n := by
  induction n using Nat.strong_induction_on with
  | _ n ih =>
    by_cases h : n = 0
    · subst h; simp [intLoop]
    · have hlt : n / 10 < n := Nat.div_lt_self (Nat.pos_of_ne_zero h) (by norm_num)
      unfold intLoop
      rw [if_neg h, intLoop_acc (n / 10), List.foldl_append]
      rw [ih (n / 10) hlt]
      simp
      omega

theorem fields_foldl (env : ExtEnc) : ∀ (fields : List LogField) (b : List Nat),
    fields.foldl (fun b f => appendField env (b ++ [44]) f) b =
      b ++ (fields.map (fun f => 44 :: appendField env [] f)).flatten := by
  intro fields
  induction fields with
  | nil => intro b; simp
  | cons f fs ih =>
    intro b
    simp only [List.foldl_cons, List.map_cons, List.flatten_cons]
    rw [ih (appendField env (b ++ [44]) f), appendField_delta env (b ++ [44]) f]
    simp

theorem log_spec (env : ExtEnc) (lg : Logger) (level : Int) (msg : List Nat)
    (fields : List LogField) (ts : List Nat) (st : MachineState) :
    Logger.log env lg level msg fields ts st =
      { st with
        acquires := st.acquires ++ [lg.pool]
        releases := st.releases ++ [lg.pool]
        encodes := st.encodes + (fields.length + 1)
        writes := st.writes ++ [(lg.output, wireRecord env lg level ts msg fields)] } := by
  unfold Logger.log wireRecord
  dsimp only
  rw [fields_foldl, appendJSONString_delta]
  simp [List.append_assoc]

/-- C1: a leveled log call at an enabled level appends exactly one write event to
the output sink, whose payload is one JSON object followed by a newline with the
keys in the fixed order level, ts, msg, then the inherited context bytes, then
the per-call fields comma-prefixed in order, with no trailing comma; the buffer
is acquired and released exactly once around it. The timestamp bytes `ts` stand
for the external RFC3339Nano formatter output for the current time, as in the
spec's own `<rfc3339nano>` placeholder. -/
theorem c1_wire_format (env : ExtEnc) (lg : Logger) (msg : List Nat)
    (fields : List LogField) (ts : List Nat) (st : MachineState) :
    (Enabled st lg.level (-1) = true →
      Logger.Debug env lg msg fields ts st =
        { st with
          acquires := st.acquires ++ [lg.pool]
          releases := st.releases ++ [lg.pool]
          encodes := st.encodes + (fields.length + 1)
          writes := st.writes ++ [(lg.output, wireRecord env lg (-1) ts msg fields)] }) ∧
    (Enabled st lg.level 0 = true →
      Logger.Info env lg msg fields ts st =
        { st with
          acquires := st.acquires ++ [lg.pool]
          releases := st.releases ++ [lg.pool]
          encodes := st.encodes + (fields.length + 1)
          writes := st.writes ++ [(lg.output, wireRecord env lg 0 ts msg fields)] }) ∧
    (Enabled st lg.level 1 = true →
      Logger.Warn env lg msg fields ts st =
        { st with
          acquires := st.acquires ++ [lg.pool]
          releases := st.releases ++ [lg.pool]
          encodes := st.encodes + (fields.length + 1)
          writes := st.writes ++ [(lg.output, wireRecord env lg 1 ts msg fields)] }) ∧
    (Enabled st lg.level 2 = true →
      Logger.Error env lg msg fields ts st =
        { st with
          acquires := st.acquires ++ [lg.pool]
          releases := st.releases ++ [lg.pool]
          encodes := st.encodes + (fields.length + 1)
          writes := st.writes ++ [(lg.output, wireRecord env lg 2 ts msg fields)] }) := by
  refine ⟨fun h => ?_, fun h => ?_, fun h => ?_, fun h => ?_⟩
  · unfold Logger.Debug; rw [if_pos h]; exact log_spec env lg (-1) msg fields ts st
  · unfold Logger.Info; rw [if_pos h]; exact log_spec env lg 0 msg fields ts st
  · unfold Logger.Warn; rw [if_pos h]; exact log_spec env lg 1 msg fields ts st
  · unfold Logger.Error; rw [if_pos h]; exact log_spec env lg 2 msg fields ts st

/-- Witness for C1 at the spec's end-to-end scenario 1: Info("server started",
String("addr",":8080"), Int("workers",4)) at Info threshold. -/
theorem c1_wire_format_witness :
    Enabled (stAt 0) lgRoot.level 0 = true ∧
    Logger.Info envNull lgRoot
        [115, 101, 114, 118, 101, 114, 32, 115, 116, 97, 114, 116, 101, 100]
        [StringField [97, 100, 100, 114] [58, 56, 48, 56, 48],
          IntField [119, 111, 114, 107, 101, 114, 115] 4]
        [] (stAt 0) =
      { stAt 0 with
        acquires := (stAt 0).acquires ++ [lgRoot.pool]
        releases := (stAt 0).releases ++ [lgRoot.pool]
        encodes := (stAt 0).encodes + (2 + 1)
        writes := (stAt 0).writes ++
          [(lgRoot.output,
            wireRecord envNull lgRoot 0 []
              [115, 101, 114, 118, 101, 114, 32, 115, 116, 97, 114, 116, 101, 100]
              [StringField [97, 100, 100, 114] [58, 56, 48, 56, 48],
                IntField [119, 111, 114, 107, 101, 114, 115] 4])] } :=
  ⟨rfl,
    (c1_wire_format envNull lgRoot
      [115, 101, 114, 118, 101, 114, 32, 115, 116, 97, 114, 116, 101, 100]
      [StringField [97, 100, 100, 114] [58, 56, 48, 56, 48],
        IntField [119, 111, 114, 107, 101, 114, 115] 4]
      [] (stAt 0)).2.1 rfl⟩

/-- C2: for every valid UTF-8 string, the quoted escaped output appended by
`appendJSONString` parses back, under a standards-compliant JSON string parser,
to exactly the original string with nothing left over. -/
theorem c2_string_roundtrip (dst s : List Nat) (h : ValidUTF8 s) :
    ∃ out, appendJSONString dst s = dst ++ out ∧ jsonParseString out = some (s, []) := by
  refine ⟨appendJSONString [] s, appendJSONString_delta dst s, ?_⟩
  have hform : appendJSONString [] s = 34 :: (appendEscapedString [] s ++ 34 :: []) := by
    unfold appendJSONString
    rw [appendEscapedString_delta ([] ++ [34]) s]
    simp
  rw [hform]
  simp only [jsonParseString]
  exact roundtrip_body h []

/-- Witness for C2 on "H", a newline, and the two-byte UTF-8 sequence C3 A9. -/
theorem c2_string_roundtrip_witness :
    ValidUTF8 [72, 10, 195, 169] ∧
    ∃ out, appendJSONString [] [72, 10, 195, 169] = [] ++ out ∧
      jsonParseString out = some ([72, 10, 195, 169], []) := by
  have hv : ValidUTF8 [72, 10, 195, 169] :=
    ValidUTF8.ascii 72 _ (by norm_num)
      (ValidUTF8.ascii 10 _ (by norm_num)
        (ValidUTF8.two 195 169 [] (by norm_num) (by norm_num) (by norm_num) (by norm_num)
          ValidUTF8.nil))
  exact ⟨hv, c2_string_roundtrip [] _ hv⟩

/-- C3 counterexample: on the one-byte input 0x7F, the escape procedure exactly
as the claim enumerates it has no applicable slow-path rule (0x7F is not one of
the five named escapes, not below 0x20, not a multi-byte head, not an invalid
encoding), so the claim's alternation cannot consume the input, while the code
emits the six bytes of the escape `\u007f`. -/
theorem c3_counterexample :
    claimEscape claimSlowC3 [127] = none ∧
    appendEscapedString [] [127] = [92, 117, 48, 48, 55, 102] ∧
    claimEscape claimSlowC3 [127] ≠ some (appendEscapedString [] [127]) := by
  refine ⟨by decide, by decide, by decide⟩

/-- C3 amended: `appendEscapedString` alternates safe-run copying with the
claimed slow path, once the `\u00XX` rule is extended to cover 0x7F as well as
the bytes below 0x20; with that single extension the alternation consumes every
input and reproduces the code's output exactly. -/
theorem c3_slow_path_amended (s : List Nat) :
    claimEscape claimSlowC3Amended s = some (appendEscapedString [] s) :=
  claimEscapeRun_amended (s.length + 1) s (by omega)

/-- C4: a leveled call whose level is below the current threshold returns with
the machine state unchanged: no buffer acquisition, no encoder invocation, no
write, no state change; and the gate `Enabled l` holds exactly when `l` is at
least the atomically read threshold. -/
theorem c4_level_gating (env : ExtEnc) (lg : Logger) (msg : List Nat)
    (fields : List LogField) (ts : List Nat) (st : MachineState) :
    (∀ l : Int, Enabled st lg.level l = true ↔ st.levels lg.level ≤ l) ∧
    (Enabled st lg.level (-1) = false → Logger.Debug env lg msg fields ts st = st) ∧
    (Enabled st lg.level 0 = false → Logger.Info env lg msg fields ts st = st) ∧
    (Enabled st lg.level 1 = false → Logger.Warn env lg msg fields ts st = st) ∧
    (Enabled st lg.level 2 = false → Logger.Error env lg msg fields ts st = st) := by
  refine ⟨fun l => by simp [Enabled], fun h => ?_, fun h => ?_, fun h => ?_, fun h => ?_⟩
  · unfold Logger.Debug; rw [if_neg (by simp [h])]
  · unfold Logger.Info; rw [if_neg (by simp [h])]
  · unfold Logger.Warn; rw [if_neg (by simp [h])]
  · unfold Logger.Error; rw [if_neg (by simp [h])]

/-- Witness for C4: with the threshold at Error (2), a Debug call with a message
and fields leaves the state untouched. -/
theorem c4_level_gating_witness :
    Enabled (stAt 2) lgRoot.level (-1) = false ∧
    Logger.Debug envNull lgRoot [104, 105]
      [StringField [107, 101, 121] [118, 97, 108]] [] (stAt 2) = stAt 2 :=
  ⟨rfl,
    (c4_level_gating envNull lgRoot [104, 105]
      [StringField [107, 101, 121] [118, 97, 108]] [] (stAt 2)).2.1 rfl⟩

/-- C5: With on an empty field list returns the receiver itself with no buffer
traffic; on a non-empty list it returns a child sharing the receiver's output,
level cell and pool, whose context is the receiver's context followed by the
comma-prefixed encodings of the given fields in order, at the cost of one
acquire/release pair; the receiver's own context value is unchanged (the model
is pure, mirroring the source's copy-on-derive discipline). -/
theorem c5_with_context (env : ExtEnc) (l : Logger) (fields : List LogField)
    (st : MachineState) :
    (Logger.With env l [] st = (l, st)) ∧
    (fields ≠ [] →
      (Logger.With env l fields st).1.output = l.output ∧
      (Logger.With env l fields st).1.level = l.level ∧
      (Logger.With env l fields st).1.pool = l.pool ∧
      (Logger.With env l fields st).1.context =
        l.context ++ (fields.map (fun f => 44 :: appendField env [] f)).flatten ∧
      (Logger.With env l fields st).2 =
        { st with
          acquires := st.acquires ++ [l.pool]
          releases := st.releases ++ [l.pool]
          encodes := st.encodes + fields.length }) := by
  constructor
  · unfold Logger.With; simp
  · intro hne
    have hlen : ¬(fields.length = 0) := by
      have := List.length_pos.mpr hne
      omega
    unfold Logger.With
    rw [if_neg hlen]
    refine ⟨rfl, rfl, rfl, ?_, rfl⟩
    dsimp only
    rw [fields_foldl]
    simp

/-- Witness for C5 with one string field. -/
theorem c5_with_context_witness :
    ([StringField [107] [118]] : List LogField) ≠ [] ∧
    ((Logger.With envNull lgRoot [StringField [107] [118]] (stAt 0)).1.output = lgRoot.output ∧
      (Logger.With envNull lgRoot [StringField [107] [118]] (stAt 0)).1.level = lgRoot.level ∧
      (Logger.With envNull lgRoot [StringField [107] [118]] (stAt 0)).1.pool = lgRoot.pool ∧
      (Logger.With envNull lgRoot [StringField [107] [118]] (stAt 0)).1.context =
        lgRoot.context ++
          (([StringField [107] [118]] : List LogField).map
            (fun f => 44 :: appendField envNull [] f)).flatten ∧
      (Logger.With envNull lgRoot [StringField [107] [118]] (stAt 0)).2 =
        { stAt 0 with
          acquires := (stAt 0).acquires ++ [lgRoot.pool]
          releases := (stAt 0).releases ++ [lgRoot.pool]
          encodes := (stAt 0).encodes + 1 }) :=
  ⟨List.cons_ne_nil _ _,
    (c5_with_context envNull lgRoot [StringField [107] [118]] (stAt 0)).2
      (List.cons_ne_nil _ _)⟩

/-- C6: Fatal always encodes and writes its record, with no level gate (the
statement holds for every machine state, hence for every threshold value), and
then terminates the process, modelled by the Boolean flag. -/
theorem c6_fatal_unconditional (env : ExtEnc) (lg : Logger) (msg : List Nat)
    (fields : List LogField) (ts : List Nat) (st : MachineState) :
    (Logger.Fatal env lg msg fields ts st).1 =
      { st with
        acquires := st.acquires ++ [lg.pool]
        releases := st.releases ++ [lg.pool]
        encodes := st.encodes + (fields.length + 1)
        writes := st.writes ++ [(lg.output, wireRecord env lg 3 ts msg fields)] } ∧
    (Logger.Fatal env lg msg fields ts st).2 = true :=
  ⟨log_spec env lg 3 msg fields ts st, rfl⟩

/-- C7: Err of an absent error is a String-tagged field with empty value, Err of
a present error is an Error-tagged field carrying the error's text; both use the
fixed key "error", and every other field constructor uses exactly the key it is
given. -/
theorem c7_err_constructor :
    ((Err none).ftype = FieldType.StringType ∧ (Err none).Str = [] ∧
      (Err none).Key = [101, 114, 114, 111, 114]) ∧
    (∀ e : List Nat, (Err (some e)).ftype = FieldType.ErrorType ∧ (Err (some e)).Str = e ∧
      (Err (some e)).Key = [101, 114, 114, 111, 114]) ∧
    (∀ key val : List Nat, (StringField key val).Key = key) ∧
    (∀ (key : List Nat) (v : Int), (IntField key v).Key = key) ∧
    (∀ (key : List Nat) (v : Int), (Int64Field key v).Key = key) ∧
    (∀ (key : List Nat) (v : Int), (Float64Field key v).Key = key) ∧
    (∀ (key : List Nat) (v : Bool), (BoolField key v).Key = key) ∧
    (∀ (key : List Nat) (v : Int), (DurationField key v).Key = key) ∧
    (∀ (key : List Nat) (v : Int), (TimeField key v).Key = key) ∧
    (∀ key val : List Nat, (BytesField key val).Key = key) :=
  ⟨⟨rfl, rfl, rfl⟩, fun _ => ⟨rfl, rfl, rfl⟩, fun _ _ => rfl, fun _ _ => rfl, fun _ _ => rfl,
    fun _ _ => rfl, fun _ _ => rfl, fun _ _ => rfl, fun _ _ => rfl, fun _ _ => rfl⟩

/-- C8: `appendInt64` appends exactly the decimal representation of any value in
the signed 64-bit range: a single '0' for zero, otherwise an optional leading
'-' followed by a digit string with no leading zero whose base-10 value is the
magnitude; in particular the minimum representable value produces exactly
"-9223372036854775808". -/
theorem c8_int64_decimal :
    (∀ (dst : List Nat) (v : Int), -(2 ^ 63) ≤ v → v < 2 ^ 63 →
      ∃ ds : List Nat,
        appendInt64 dst v = dst ++ (if v < 0 then 45 :: ds else ds) ∧
        ds ≠ [] ∧ (∀ d ∈ ds, 48 ≤ d ∧ d ≤ 57) ∧
        (v = 0 → ds = [48]) ∧ (v ≠ 0 → ds.head? ≠ some 48) ∧
        ds.foldl (fun a d => a * 10 + (d - 48)) 0 = v.natAbs) ∧
    appendInt64 [] (-9223372036854775808) =
      [45, 57, 50, 50, 51, 51, 55, 50, 48, 51, 54, 56, 53, 52, 55, 55, 53, 56, 48, 56] := by
  constructor
  · intro dst v h1 h2
    rcases lt_trichotomy v 0 with hneg | hzero | hpos
    · by_cases hmin : v = -9223372036854775808
      · subst hmin
        refine ⟨[57, 50, 50, 51, 51, 55, 50, 48, 51, 54, 56, 53, 52, 55, 55, 53, 56, 48, 56],
          ?_, by decide, by decide, by decide, fun _ => by decide, by decide⟩
        unfold appendInt64
        rw [if_neg (by decide), if_pos (by decide), if_pos rfl, if_pos (by decide)]
        simp
      · have hne : v ≠ 0 := by omega
        have hn : (-v).toNat ≠ 0 := by omega
        refine ⟨intLoop (-v).toNat [], ?_, intLoop_ne_nil hn, intLoop_digits _, fun h0 => absurd h0 hne,
          fun _ => intLoop_head _ hn, ?_⟩
        · unfold appendInt64
          rw [if_neg hne, if_pos hneg, if_neg hmin, if_pos hneg]
          simp
        · rw [intLoop_val]
          omega
    · subst hzero
      refine ⟨[48], ?_, by decide, by decide, fun _ => rfl, fun h0 => absurd rfl h0, by decide⟩
      unfold appendInt64
      rw [if_pos rfl, if_neg (by decide)]
    · have hne : v ≠ 0 := by omega
      have hnlt : ¬(v < 0) := by omega
      have hn : v.toNat ≠ 0 := by omega
      refine ⟨intLoop v.toNat [], ?_, intLoop_ne_nil hn, intLoop_digits _, fun h0 => absurd h0 hne,
        fun _ => intLoop_head _ hn, ?_⟩
      · unfold appendInt64
        rw [if_neg hne, if_neg hnlt, if_neg hnlt]
      · rw [intLoop_val]
        omega
  · unfold appendInt64
    rw [if_neg (by decide), if_pos (by decide), if_pos rfl]
    simp

/-- Witness for C8 at -42. -/
theorem c8_int64_decimal_witness :
    ∃ ds : List Nat,
      appendInt64 [] (-42) = [] ++ (if (-42 : Int) < 0 then 45 :: ds else ds) ∧
      ds ≠ [] ∧ (∀ d ∈ ds, 48 ≤ d ∧ d ≤ 57) ∧
      ((-42 : Int) = 0 → ds = [48]) ∧ ((-42 : Int) ≠ 0 → ds.head? ≠ some 48) ∧
      ds.foldl (fun a d => a * 10 + (d - 48)) 0 = (-42 : Int).natAbs :=
  c8_int64_decimal.1 [] (-42) (by decide) (by decide)

/-- C10: the byte 0x7F (ASCII DEL) is outside the safe set and below the
multi-byte threshold, it never appears in any escaped output (so it is never
copied verbatim), and at the head of an input it is emitted as the six-character
lowercase-hex escape `\u007f`. -/
theorem c10_del_escaped :
    safeSet 127 = false ∧ (127 : Nat) < 0x80 ∧
    (∀ s : List Nat, 127 ∉ appendEscapedString [] s) ∧
    (∀ t : List Nat, appendEscapedString [] (127 :: t) =
      [92, 117, 48, 48, 55, 102] ++ appendEscapedString [] t) := by
  refine ⟨by decide, by norm_num, fun s => esc_no_del s.length s le_rfl, fun t => ?_⟩
  rw [appendEscapedString_unsafe_ascii t (by decide) (by norm_num) []]
  have hesc : escByte 127 = [92, 117, 48, 48, 55, 102] := by decide
  rw [hesc]
  simp
